import Mathlib

/- Shallow embedding of the uhashfs content-addressable file store
(src/uhashfs/uhashfs.py).  Lean String models Python str, `List Nat` models
byte strings, and a small association-list filesystem models the directory
tree the store mutates.  The cryptographic hash (hashlib.new(algorithm)) is
abstracted as a function from byte lists to hex-digest strings: incremental
hasher state is modelled by the list of bytes fed to update() so far, and
hexdigest() applies the abstract function to that accumulated list. -/

/-- Python bytes values: a list of byte-sized naturals. -/
abbrev Bytes := List Nat

/-- String length as Python len(): the number of characters. -/
def strLen (s : String) : Nat := s.toList.length

/- ----------------------------------------------------------------
Validation of int(digest, 16) as CPython performs it: surrounding
whitespace is stripped, an optional sign, an optional 0x or 0X base
marker, and hex digits optionally separated by single underscores
(an underscore is also allowed directly after the base marker).
---------------------------------------------------------------- -/

/-- ASCII whitespace accepted (and stripped) by int(). -/
def isWS (c : Char) : Bool :=
  c = ' ' || c = '\t' || c = '\n' || c = '\r' || c = '\x0b' || c = '\x0c'

/-- Hexadecimal digit characters (both cases), as int(x, 16) accepts. -/
def isHexDigitCh (c : Char) : Bool :=
  ('0' ≤ c && c ≤ '9') || ('a' ≤ c && c ≤ 'f') || ('A' ≤ c && c ≤ 'F')

/-- After a first digit: digits with single underscores between digits. -/
def digitsTail : List Char → Bool
  | [] => true
  | '_' :: c :: rest => isHexDigitCh c && digitsTail rest
  | c :: rest => isHexDigitCh c && digitsTail rest

/-- A nonempty run of hex digits with single underscores between digits. -/
def digitsOK : List Char → Bool
  | [] => false
  | c :: rest => isHexDigitCh c && digitsTail rest

/-- Digit part after a 0x base marker: one leading underscore is allowed. -/
def afterBaseMarker : List Char → Bool
  | '_' :: rest => digitsOK rest
  | l => digitsOK l

/-- Body after the optional sign: optional 0x or 0X marker, then digits. -/
def hexBody : List Char → Bool
  | '0' :: 'x' :: rest => afterBaseMarker rest
  | '0' :: 'X' :: rest => afterBaseMarker rest
  | l => digitsOK l

/-- Optional sign, then the hex body. -/
def signedBody : List Char → Bool
  | '+' :: rest => hexBody rest
  | '-' :: rest => hexBody rest
  | l => hexBody l

/-- Whether int(s, 16) succeeds in Python: strip whitespace on both ends,
then an optionally signed, optionally 0x-marked underscore-separated hex
digit run. -/
def pyIntHexValid (s : String) : Bool :=
  let l1 := s.toList.dropWhile isWS
  let l2 := (l1.reverse.dropWhile isWS).reverse
  signedBody l2

/-- Every character that can occur in a string accepted by int(s, 16). -/
def pyIntChar (c : Char) : Bool :=
  isWS c || c = '+' || c = '-' || c = 'x' || c = 'X' || c = '_' || isHexDigitCh c

/- ----------------------------------------------------------------
Path helpers: POSIX separator semantics of os.path used by the code.
---------------------------------------------------------------- -/

/-- Python s.split(sep) for the path separator: splits at every slash,
keeping empty pieces, so that a nonempty result list is always produced. -/
def splitOnSep : List Char → List (List Char)
  | [] => [[]]
  | c :: rest =>
    let r := splitOnSep rest
    if c = '/' then [] :: r
    else
      match r with
      | [] => [[c]]
      | h :: t => (c :: h) :: t

/-- Python l[-1] with a default for the impossible empty case. -/
def lastOr {α : Type} : List α → α → α
  | [], d => d
  | [a], _ => a
  | _ :: b :: t, d => lastOr (b :: t) d

/-- path.split(os.path.sep)[-1]: the final path segment. -/
def lastSeg (p : String) : String := String.mk (lastOr (splitOnSep p.toList) [])

/-- Python s.startswith(pre). -/
def pyStartswith (s pre : String) : Bool := decide (pre.toList <+: s.toList)

/-- Python s.endswith(suf). -/
def pyEndswith (s suf : String) : Bool := decide (suf.toList <:+ s.toList)

/-- One step of posixpath.join: an absolute component restarts the path,
otherwise a separator is inserted unless one is already present. -/
def osJoin2 (a b : String) : String :=
  if pyStartswith b "/" then b
  else if a = "" ∨ pyEndswith a "/" then a ++ b
  else a ++ "/" ++ b

/-- os.path.join(a, *ps) on POSIX. -/
def osJoin (a : String) (ps : List String) : String := ps.foldl osJoin2 a

/-- os.path.dirname(p) on POSIX: everything before the final slash, with
trailing slashes stripped unless the result is only slashes. -/
def dirname (p : String) : String :=
  let rev2 := p.toList.reverse.dropWhile (fun c => decide (c ≠ '/'))
  if rev2 = [] then ""
  else if rev2.all (fun c => decide (c = '/')) then String.mk rev2.reverse
  else String.mk ((rev2.dropWhile (fun c => decide (c = '/'))).reverse)

/-- The nonempty segments of a path, for os.path.commonpath comparisons. -/
def pathSegs (p : String) : List (List Char) :=
  (splitOnSep p.toList).filter (fun s => decide (s ≠ []))

/-- path_is_parent from the source: resolves both paths and compares
os.path.commonpath([parent]) with os.path.commonpath([parent, child]),
which holds exactly when parent's segments are a segment-wise prefix of
child's.  Path resolution (expanduser/resolve) is modelled as the identity
on the already-absolute, normalized paths used here. -/
def path_is_parent (parent child : String) : Bool :=
  decide (pathSegs parent <+: pathSegs child)

/- ----------------------------------------------------------------
Error kinds.  Python exception classes are modelled by constructors; the
several ValueError sites are distinguished by their message.
---------------------------------------------------------------- -/

/-- ValueError reasons raised by digestpath and unshard. -/
inductive DigestErr where
  | badLength
  | notHex
  | notAbsolute
deriving DecidableEq, Repr

/-- Exception kinds surfaced by store operations. -/
inductive PyErr where
  | typeError
  | valueWithinRoot
  | valueBadDigest (e : DigestErr)
  | fileNotFound
  | fileExists
  | assertionError
deriving DecidableEq, Repr

/-- Errors of the os.link modelling (errno EEXIST and ENOENT). -/
inductive OSErr where
  | eexist
  | enoent
deriving DecidableEq, Repr

/- ----------------------------------------------------------------
Filesystem model: regular files as an association list from absolute path
to content, plus the set of existing directories.
---------------------------------------------------------------- -/

/-- The filesystem state the store mutates. -/
structure FS where
  files : List (String × Bytes)
  dirs : List String
deriving DecidableEq, Repr

/-- First content stored under a path, if any. -/
def lookupFile : List (String × Bytes) → String → Option Bytes
  | [], _ => none
  | (q, c) :: rest, p => if q = p then some c else lookupFile rest p

/-- Remove every entry stored under a path. -/
def removeFile : List (String × Bytes) → String → List (String × Bytes)
  | [], _ => []
  | (q, c) :: rest, p =>
    if q = p then removeFile rest p else (q, c) :: removeFile rest p

/-- How many entries a path has (1 for a live file in a consistent state). -/
def countFile : List (String × Bytes) → String → Nat
  | [], _ => 0
  | (q, _) :: rest, p => (if q = p then 1 else 0) + countFile rest p

/-- String list membership. -/
def memStr : List String → String → Bool
  | [], _ => false
  | q :: rest, p => if q = p then true else memStr rest p

def FS.getFile (fs : FS) (p : String) : Option Bytes := lookupFile fs.files p

def FS.isFile (fs : FS) (p : String) : Bool := (fs.getFile p).isSome

def FS.isDir (fs : FS) (p : String) : Bool := memStr fs.dirs p

/-- os.unlink / os.remove. -/
def FS.unlink (fs : FS) (p : String) : FS :=
  { fs with files := removeFile fs.files p }

/-- Net effect of opening a path for writing, writing bytes, and closing. -/
def FS.writeFile (fs : FS) (p : String) (c : Bytes) : FS :=
  { fs with files := (p, c) :: removeFile fs.files p }

/-- The chain of ancestors os.makedirs creates: the directory itself and
every parent above it, stopping at the filesystem root. -/
def dirUp : Nat → String → List String
  | 0, _ => []
  | n + 1, d =>
    if d = "" then []
    else d :: (if dirname d = d then [] else dirUp n (dirname d))

/-- os.makedirs(d): create d and all missing ancestors. -/
def FS.makedirs (fs : FS) (d : String) : FS :=
  { fs with dirs := dirUp (strLen d + 1) d ++ fs.dirs }

/-- os.link(src, dst): fails with ENOENT when the destination's directory
(or the source file) is missing, with EEXIST when the destination exists,
and otherwise atomically creates a second name for the source's content. -/
def FS.link (fs : FS) (src dst : String) : Except OSErr FS :=
  if fs.isDir (dirname dst) = false then .error .enoent
  else if fs.isFile dst = true then .error .eexist
  else
    match fs.getFile src with
    | none => .error .enoent
    | some c => .ok { fs with files := (dst, c) :: fs.files }

/- ----------------------------------------------------------------
Readable handles and the module-level hashing helpers.
---------------------------------------------------------------- -/

/-- An open binary file handle: its content and its current offset. -/
structure Handle where
  content : Bytes
  pos : Nat
deriving DecidableEq, Repr

/-- handle.read(n): up to n bytes from the current offset, advancing it. -/
def Handle.read (h : Handle) (n : Nat) : Bytes × Handle :=
  let chunk := (h.content.drop h.pos).take n
  (chunk, { h with pos := h.pos + chunk.length })

/-- handle.seek(n). -/
def Handle.seek (h : Handle) (n : Nat) : Handle := { h with pos := n }

/-- handle.tell(). -/
def Handle.tell (h : Handle) : Nat := h.pos

/-- block_size = 256 * 128 * 2 from hash_readable. -/
def blockSize : Nat := 256 * 128 * 2

/-- The read loop of hash_readable: read blockSize-byte chunks until a read
returns the empty byte string, feeding every chunk to the hasher and
mirroring it into the staging file when one was given.  The fuel argument
is an upper bound on the number of reads, supplied by hash_readable below
as one more than the bytes remaining, which the loop can never exhaust
because every non-final read consumes at least one byte. -/
def readLoop : Nat → Handle → Bytes → Option Bytes → Bytes × Handle × Option Bytes
  | 0, h, acc, tmp => (acc, h, tmp)
  | n + 1, h, acc, tmp =>
    let pr := h.read blockSize
    if pr.1 = [] then (acc, pr.2, tmp)
    else readLoop n pr.2 (acc ++ pr.1) (tmp.map (fun t => t ++ pr.1))

/-- hash_readable(handle, algorithm, tmp): hash every chunk read from the
handle, mirroring chunks into tmp; returns the hex digest, the handle as
the loop leaves it, and the final staged bytes. -/
def hash_readable (H : Bytes → String) (handle : Handle) (tmp : Option Bytes) :
    String × Handle × Option Bytes :=
  let r := readLoop (handle.content.length - handle.pos + 1) handle [] tmp
  (H r.1, r.2.1, r.2.2)

/-- hash_file(path, algorithm, tmp): open the file (a fresh handle at
offset 0 on its content) and hash it with hash_readable. -/
def hash_file (H : Bytes → String) (content : Bytes) (tmp : Option Bytes) :
    String × Option Bytes :=
  let r := hash_readable H (Handle.mk content 0) tmp
  (r.1, r.2.2)

/-- hash_file_handle(handle, algorithm, tmp): record the offset, hash from
there to the end, then seek back to the recorded offset. -/
def hash_file_handle (H : Bytes → String) (handle : Handle) (tmp : Option Bytes) :
    String × Handle × Option Bytes :=
  let pos := handle.tell
  let r := hash_readable H handle tmp
  (r.1, r.2.1.seek pos, r.2.2)

/-- Iterating an in-memory StringIO/BytesIO yields its lines: maximal
chunks ending at each newline byte.  Text chunks are encoded to UTF-8
before hashing; since 0x0a bytes arise only from the newline character,
line splitting is modelled directly on the byte content. -/
def lineSplit : Bytes → List Bytes
  | [] => []
  | c :: rest =>
    let r := lineSplit rest
    if c = 10 then [10] :: r
    else
      match r with
      | [] => [[c]]
      | h :: t => (c :: h) :: t

/-- Concatenation of a chunk stream. -/
def concatAll : List Bytes → Bytes
  | [] => []
  | c :: rest => c ++ concatAll rest

/-- The chunk loop shared by computehash: feed each chunk to the hasher
and mirror it into the staging file. -/
def streamFold : List Bytes → Bytes → Option Bytes → Bytes × Option Bytes
  | [], acc, tmp => (acc, tmp)
  | c :: rest, acc, tmp => streamFold rest (acc ++ c) (tmp.map (fun t => t ++ c))

/- ----------------------------------------------------------------
module-level unshard.
---------------------------------------------------------------- -/

/-- unshard(path): assert a separator occurs (else ValueError, path must
be absolute), then return the final path segment. -/
def unshard (path : String) : Except DigestErr String :=
  if '/' ∈ path.toList then .ok (lastSeg path) else .error .notAbsolute

/-- compact(items): keep only truthy (nonempty) strings. -/
def compact (items : List String) : List String :=
  items.filter (fun item => decide (item.toList ≠ []))

/-- Python digest[a:b] for 0 ≤ a ≤ b. -/
def pySlice (s : String) (a b : Nat) : String :=
  String.mk ((s.toList.drop a).take (b - a))

/- ----------------------------------------------------------------
The uHashFS store.
---------------------------------------------------------------- -/

/-- Store configuration.  root and tmproot are the resolved absolute
directories; hashfn abstracts hashlib.new(algorithm) and digestlen its
hex digest length (digest_size * 2).  fmode/dmode only set permission
bits and are not modelled. -/
structure uHashFS where
  root : String
  tmproot : String
  depth : Nat
  width : Nat
  hashfn : Bytes → String
  digestlen : Nat

/-- The address value returned by put operations.  The source stores a
back-reference to the owning store in the second field; it carries no
information for the claims and is omitted here. -/
structure HashAddress where
  digest : String
  abspath : String
  is_duplicate : Bool
deriving DecidableEq, Repr

namespace uHashFS

/-- shard(digest): depth slices of width characters from the front of the
digest, then the whole digest, with empty (falsy) pieces dropped. -/
def shard (st : uHashFS) (digest : String) : List String :=
  compact (((List.range st.depth).map
    (fun i => pySlice digest (i * st.width) (st.width * (i + 1)))) ++ [digest])

/-- digestpath(digest): reject digests of the wrong length, then digests
int(digest, 16) cannot parse, then join root with the shard segments. -/
def digestpath (st : uHashFS) (digest : String) : Except DigestErr String :=
  if strLen digest ≠ st.digestlen then .error .badLength
  else if pyIntHexValid digest = false then .error .notHex
  else .ok (osJoin st.root (st.shard digest))

/-- The staging step _mktemp: NamedTemporaryFile in tmproot; on FileNotFoundError create
tmproot with makedirs and retry once.  The platform guarantees tmpName is
fresh.  The chmod/umask dance only sets permission bits and is omitted. -/
def mktemp (st : uHashFS) (fs : FS) (tmpName : String) : FS :=
  let fs1 := if fs.isDir st.tmproot then fs else fs.makedirs st.tmproot
  { fs1 with files := (tmpName, []) :: fs1.files }

/-- The commit step _mvtemp(tmp, filepath): hard-link the staged file to filepath.  On
FileExistsError the content is already stored: unlink the staged file and
report a duplicate (the block after return True in the source is dead
code).  On FileNotFoundError create the missing directories and link
again, letting a second failure propagate.  After a successful link,
unlink the staged file and report a fresh store. -/
def mvtemp (st : uHashFS) (fs : FS) (tmp filepath : String) :
    Except OSErr (FS × Bool) :=
  match fs.link tmp filepath with
  | .error .eexist => .ok (fs.unlink tmp, true)
  | .error .enoent =>
    let fs1 := fs.makedirs (dirname filepath)
    match fs1.link tmp filepath with
    | .error e => .error e
    | .ok fs2 => .ok (fs2.unlink tmp, false)
  | .ok fs1 => .ok (fs1.unlink tmp, false)

/-- computehash(stream, tmp): iterate the stream's chunks (normalizing
text chunks to bytes), feeding the hasher and mirroring into tmp; the
Content-Length probe only drives disabled progress printing. -/
def computehash (st : uHashFS) (stream : List Bytes) (tmp : Option Bytes) :
    String × Option Bytes :=
  let r := streamFold stream [] tmp
  (st.hashfn r.1, r.2)

/-- putstr(string): wrap the text or byte content (whose bytes are b) in
an in-memory stream, stage a temp file, hash the stream while mirroring
it into the temp file, derive the sharded path, and commit.  tmpName is
the fresh temporary name the platform picked inside tmproot. -/
def putstr (st : uHashFS) (fs : FS) (b : Bytes) (tmpName : String) :
    Except (PyErr × FS) (FS × HashAddress) :=
  let fs1 := st.mktemp fs tmpName
  let r := st.computehash (lineSplit b) (some [])
  let fs2 := fs1.writeFile tmpName (r.2.getD [])
  match st.digestpath r.1 with
  | .error e => .error (.valueBadDigest e, fs2)
  | .ok filepath =>
    match st.mvtemp fs2 tmpName filepath with
    | .error .eexist => .error (.fileExists, fs2)
    | .error .enoent => .error (.fileNotFound, fs2)
    | .ok pr => .ok (pr.1, HashAddress.mk r.1 filepath pr.2)

/-- The shapes a putfile source can take.  A binary handle and a
text-mode handle both carry a name attribute; a plain path is a string;
invalid stands for any object the Path constructor rejects with
TypeError (not path-like, no name attribute). -/
inductive Source where
  | path (p : String)
  | handle (nm : String) (h : Handle)
  | thandle (nm : String) (h : Handle)
  | invalid
deriving DecidableEq, Repr

/-- Path(file.name) when the source has a name attribute, else
Path(file); none models the TypeError the Path constructor raises. -/
def sourceName : Source → Option String
  | .path p => some p
  | .handle nm _ => some nm
  | .thandle nm _ => some nm
  | .invalid => none

/-- The tail of putfile shared by every source shape: the staged bytes
are on disk in the temp file, the sharded path is derived from the
digest, and the commit runs. -/
def putfinish (st : uHashFS) (fs1 : FS) (tmpName : String) (digest : String)
    (tc : Bytes) (src : Source) :
    Except (PyErr × FS) (FS × HashAddress × Source) :=
  let fs2 := fs1.writeFile tmpName tc
  match st.digestpath digest with
  | .error e => .error (.valueBadDigest e, fs2)
  | .ok filepath =>
    match st.mvtemp fs2 tmpName filepath with
    | .error .eexist => .error (.fileExists, fs2)
    | .error .enoent => .error (.fileNotFound, fs2)
    | .ok pr => .ok (pr.1, HashAddress.mk digest filepath pr.2, src)

/-- putfile(file): interpret the source's name (TypeError before any
staging when Path rejects it), reject sources inside the store root,
stage a temp file, then hash: a path via hash_file; a binary handle via
hash_file_handle, after hash_file's open raised TypeError; a text-mode
handle reaches hasher.update with str chunks, whose TypeError is not
caught, so it propagates after staging.  Finally commit.  The result
carries the source as the operation leaves it (a binary handle with its
offset restored). -/
def putfile (st : uHashFS) (fs : FS) (file : Source) (tmpName : String) :
    Except (PyErr × FS) (FS × HashAddress × Source) :=
  match sourceName file with
  | none => .error (.typeError, fs)
  | some nm =>
    if path_is_parent st.root nm then .error (.valueWithinRoot, fs)
    else
      let fs1 := st.mktemp fs tmpName
      match file with
      | .path p =>
        match fs1.getFile p with
        | none => .error (.fileNotFound, fs1)
        | some c =>
          let r := hash_file st.hashfn c (some [])
          st.putfinish fs1 tmpName r.1 (r.2.getD []) (.path p)
      | .handle nm2 h =>
        let r := hash_file_handle st.hashfn h (some [])
        st.putfinish fs1 tmpName r.1 (r.2.2.getD []) (.handle nm2 r.2.1)
      | .thandle _ _ => .error (.typeError, fs1)
      | .invalid => .error (.typeError, fs)

/-- delete(digest): derive the sharded path, assert it is confined under
root, then os.remove it (FileNotFoundError when absent). -/
def delete (st : uHashFS) (fs : FS) (digest : String) :
    Except PyErr (FS × Bool) :=
  match st.digestpath digest with
  | .error e => .error (.valueBadDigest e)
  | .ok realpath =>
    if pyStartswith realpath st.root = false then .error .assertionError
    else if fs.isFile realpath = false then .error .fileNotFound
    else .ok (fs.unlink realpath, true)

/-- files(): every regular file in the tree under root, as os.walk finds
them. -/
def files (st : uHashFS) (fs : FS) : List String :=
  (fs.files.map Prod.fst).filter
    (fun p => decide (pathSegs st.root <+: pathSegs p))

/-- The generator body of corrupted(), over the remaining walk.  For each
file: rehash its bytes, assert the digest is as long as the file's
basename, derive the expected path, and report the file when it is not
already there.  The model collects the yields and surfaces the first
exception. -/
def corruptedGo (st : uHashFS) (fs : FS) :
    List String → Except PyErr (List (String × HashAddress))
  | [] => .ok []
  | p :: rest =>
    match fs.getFile p with
    | none => .error .fileNotFound
    | some c =>
      let digest := (hash_file st.hashfn c none).1
      if strLen digest ≠ strLen (lastSeg p) then .error .assertionError
      else
        match st.digestpath digest with
        | .error e => .error (.valueBadDigest e)
        | .ok expected =>
          match st.corruptedGo fs rest with
          | .error e => .error e
          | .ok l =>
            .ok (if expected ≠ p then (p, HashAddress.mk digest expected false) :: l else l)

/-- corrupted(): scan every stored file for content whose rehash no
longer matches its location. -/
def corrupted (st : uHashFS) (fs : FS) :
    Except PyErr (List (String × HashAddress)) :=
  st.corruptedGo fs (st.files fs)

end uHashFS

/- ----------------------------------------------------------------
Lemmas about the filesystem association list.
---------------------------------------------------------------- -/

theorem lookupFile_removeFile_self (l : List (String × Bytes)) (p : String) :
    lookupFile (removeFile l p) p = none := by
  induction l with
  | nil => rfl
  | cons e rest ih =>
    obtain ⟨q, c⟩ := e
    by_cases hq : q = p
    · simp [removeFile, hq, ih]
    · simp [removeFile, lookupFile, hq, ih]

theorem lookupFile_removeFile_ne (l : List (String × Bytes)) (p q : String)
    (h : q ≠ p) : lookupFile (removeFile l p) q = lookupFile l q := by
  have hpq : p ≠ q := fun he => h he.symm
  induction l with
  | nil => rfl
  | cons e rest ih =>
    obtain ⟨r, c⟩ := e
    by_cases hr : r = p
    · simp [removeFile, hr, lookupFile, ih, hpq]
    · by_cases hrq : r = q
      · simp [removeFile, hr, lookupFile, hrq, h]
      · simp [removeFile, hr, lookupFile, hrq, ih]

theorem removeFile_removeFile (l : List (String × Bytes)) (p : String) :
    removeFile (removeFile l p) p = removeFile l p := by
  induction l with
  | nil => rfl
  | cons e rest ih =>
    obtain ⟨q, c⟩ := e
    by_cases hq : q = p
    · simp [removeFile, hq, ih]
    · simp [removeFile, hq, ih]

theorem lookupFile_none_removeFile (l : List (String × Bytes)) (p : String)
    (h : lookupFile l p = none) : removeFile l p = l := by
  induction l with
  | nil => rfl
  | cons e rest ih =>
    obtain ⟨q, c⟩ := e
    by_cases hq : q = p
    · simp [lookupFile, hq] at h
    · simp [lookupFile, hq] at h
      simp [removeFile, hq, ih h]

theorem lookupFile_none_countFile (l : List (String × Bytes)) (p : String)
    (h : lookupFile l p = none) : countFile l p = 0 := by
  induction l with
  | nil => rfl
  | cons e rest ih =>
    obtain ⟨q, c⟩ := e
    by_cases hq : q = p
    · simp [lookupFile, hq] at h
    · simp [lookupFile, hq] at h
      simp [countFile, hq, ih h]

/- ----------------------------------------------------------------
Lemmas about the hashing loops.
---------------------------------------------------------------- -/

theorem streamFold_spec (cs : List Bytes) :
    ∀ (acc : Bytes) (tmp : Option Bytes),
      streamFold cs acc tmp =
        (acc ++ concatAll cs, tmp.map (fun t => t ++ concatAll cs)) := by
  induction cs with
  | nil =>
    intro acc tmp
    cases tmp <;> simp [streamFold, concatAll]
  | cons c rest ih =>
    intro acc tmp
    rw [streamFold, ih]
    cases tmp <;> simp [concatAll]

theorem lineSplit_concat (l : Bytes) : concatAll (lineSplit l) = l := by
  induction l with
  | nil => rfl
  | cons c rest ih =>
    rw [lineSplit]
    by_cases hc : c = 10
    · simp only [if_pos hc, concatAll, ih, hc]
      rfl
    · simp only [if_neg hc]
      cases hr : lineSplit rest with
      | nil =>
        rw [hr] at ih
        simp [concatAll] at ih
        simp [concatAll, ← ih]
      | cons h t =>
        rw [hr] at ih
        simp only [concatAll] at ih ⊢
        simp [← ih]

theorem readLoop_spec (n : Nat) :
    ∀ (h : Handle) (acc : Bytes) (tmp : Option Bytes),
      h.content.length - h.pos < n →
      readLoop n h acc tmp =
        (acc ++ h.content.drop h.pos,
         Handle.mk h.content
           (if h.content.length ≤ h.pos then h.pos else h.content.length),
         tmp.map (fun t => t ++ h.content.drop h.pos)) := by
  induction n with
  | zero => intro h acc tmp hlt; omega
  | succ n ih =>
    intro h acc tmp hlt
    obtain ⟨content, pos⟩ := h
    simp only at hlt ⊢
    simp only [readLoop]
    have hchunkval : (Handle.read ⟨content, pos⟩ blockSize).1 =
        (content.drop pos).take blockSize := by
      simp [Handle.read]
    have hread2 : (Handle.read ⟨content, pos⟩ blockSize).2 =
        Handle.mk content (pos + ((content.drop pos).take blockSize).length) := by
      simp [Handle.read]
    by_cases hc : (Handle.read ⟨content, pos⟩ blockSize).1 = []
    · rw [if_pos hc]
      have h1 : (content.drop pos).take blockSize = [] := by rw [← hchunkval]; exact hc
      have h2 : content.drop pos = [] := by
        have h3 := congrArg List.length h1
        simp only [List.length_take, List.length_drop, List.length_nil, blockSize] at h3
        refine List.eq_nil_of_length_eq_zero ?_
        simp only [List.length_drop]
        omega
      have hle : content.length ≤ pos := by
        have h3 := congrArg List.length h2
        simp only [List.length_drop, List.length_nil] at h3
        omega
      rw [hread2, h1]
      simp only [List.length_nil, Nat.add_zero]
      rw [h2, if_pos hle]
      cases tmp <;> simp
    · rw [if_neg hc]
      rw [hchunkval] at hc
      have hlen : 0 < ((content.drop pos).take blockSize).length :=
        List.length_pos.mpr hc
      have hposlt : pos < content.length := by
        by_contra hge
        have hd : content.drop pos = [] := List.drop_eq_nil_of_le (by omega)
        rw [hd] at hc
        simp at hc
      have hclen : ((content.drop pos).take blockSize).length ≤ content.length - pos := by
        rw [List.length_take, List.length_drop]
        omega
      rw [hread2, hchunkval]
      rw [ih (Handle.mk content (pos + ((content.drop pos).take blockSize).length))
        (acc ++ (content.drop pos).take blockSize)
        (tmp.map (fun t => t ++ (content.drop pos).take blockSize))
        (by simp only; omega)]
      have hdropsplit : (content.drop pos).take blockSize ++
          content.drop (pos + ((content.drop pos).take blockSize).length) =
          content.drop pos := by
        have hdd : content.drop (pos + ((content.drop pos).take blockSize).length) =
            (content.drop pos).drop ((content.drop pos).take blockSize).length :=
          (List.drop_drop ..).symm
        rw [hdd, List.length_take]
        rcases Nat.le_total blockSize (content.drop pos).length with hbs | hbs
        · rw [Nat.min_eq_left hbs]
          exact List.take_append_drop _ _
        · rw [Nat.min_eq_right hbs, List.drop_length,
            List.take_of_length_le hbs, List.append_nil]
      simp only [Prod.mk.injEq]
      refine ⟨?_, ?_, ?_⟩
      · rw [List.append_assoc, hdropsplit]
      · have hig : (if content.length ≤ pos + ((content.drop pos).take blockSize).length
            then pos + ((content.drop pos).take blockSize).length
            else content.length) = content.length := by
          split <;> omega
        rw [hig, if_neg (by omega)]
      · cases tmp with
        | none => rfl
        | some t =>
          simp only [Option.map]
          rw [List.append_assoc, hdropsplit]

theorem hash_readable_spec (H : Bytes → String) (h : Handle) (tmp : Option Bytes) :
    hash_readable H h tmp =
      (H (h.content.drop h.pos),
       Handle.mk h.content
         (if h.content.length ≤ h.pos then h.pos else h.content.length),
       tmp.map (fun t => t ++ h.content.drop h.pos)) := by
  rw [hash_readable]
  rw [readLoop_spec (h.content.length - h.pos + 1) h [] tmp (by omega)]
  simp

theorem hash_file_spec (H : Bytes → String) (c : Bytes) (tmp : Option Bytes) :
    hash_file H c tmp = (H c, tmp.map (fun t => t ++ c)) := by
  rw [hash_file, hash_readable_spec]
  simp

theorem hash_file_handle_spec (H : Bytes → String) (h : Handle) (tmp : Option Bytes) :
    hash_file_handle H h tmp =
      (H (h.content.drop h.pos), h, tmp.map (fun t => t ++ h.content.drop h.pos)) := by
  rw [hash_file_handle, hash_readable_spec]
  cases h with
  | mk content pos => simp [Handle.seek, Handle.tell]

/- ----------------------------------------------------------------
Characters of strings accepted by int(s, 16).
---------------------------------------------------------------- -/

theorem hex_pyIntChar (c : Char) (h : isHexDigitCh c = true) : pyIntChar c = true := by
  simp [pyIntChar, h]

theorem digitsTail_chars (l : List Char) (h : digitsTail l = true) :
    ∀ c ∈ l, pyIntChar c = true := by
  induction l using digitsTail.induct with
  | case1 => intro c hc; cases hc
  | case2 c2 rest ih =>
    rw [digitsTail] at h
    intro c hc
    rcases List.mem_cons.mp hc with rfl | hc2
    · decide
    · rcases List.mem_cons.mp hc2 with rfl | hc3
      · exact hex_pyIntChar c ((Bool.and_eq_true ..).mp h).1
      · exact ih ((Bool.and_eq_true ..).mp h).2 c hc3
  | case3 c1 rest hne ih =>
    rw [digitsTail.eq_3 c1 rest hne] at h
    intro c hc
    rcases List.mem_cons.mp hc with rfl | hc2
    · exact hex_pyIntChar c ((Bool.and_eq_true ..).mp h).1
    · exact ih ((Bool.and_eq_true ..).mp h).2 c hc2

theorem digitsOK_chars (l : List Char) (h : digitsOK l = true) :
    ∀ c ∈ l, pyIntChar c = true := by
  cases l with
  | nil => intro c hc; cases hc
  | cons c1 rest =>
    rw [digitsOK] at h
    intro c hc
    rcases List.mem_cons.mp hc with rfl | hc2
    · exact hex_pyIntChar c ((Bool.and_eq_true ..).mp h).1
    · exact digitsTail_chars rest ((Bool.and_eq_true ..).mp h).2 c hc2

theorem afterBaseMarker_chars (l : List Char) (h : afterBaseMarker l = true) :
    ∀ c ∈ l, pyIntChar c = true := by
  by_cases h1 : ∃ rest, l = '_' :: rest
  · obtain ⟨rest, rfl⟩ := h1
    rw [afterBaseMarker] at h
    intro c hc
    rcases List.mem_cons.mp hc with rfl | hc2
    · decide
    · exact digitsOK_chars rest h c hc2
  · rw [afterBaseMarker.eq_2 l (fun r he => h1 ⟨r, he⟩)] at h
    exact digitsOK_chars l h

theorem hexBody_chars (l : List Char) (h : hexBody l = true) :
    ∀ c ∈ l, pyIntChar c = true := by
  by_cases h1 : ∃ rest, l = '0' :: 'x' :: rest
  · obtain ⟨rest, rfl⟩ := h1
    rw [hexBody] at h
    intro c hc
    rcases List.mem_cons.mp hc with rfl | hc2
    · decide
    · rcases List.mem_cons.mp hc2 with rfl | hc3
      · decide
      · exact afterBaseMarker_chars rest h c hc3
  · by_cases h2 : ∃ rest, l = '0' :: 'X' :: rest
    · obtain ⟨rest, rfl⟩ := h2
      rw [hexBody] at h
      intro c hc
      rcases List.mem_cons.mp hc with rfl | hc2
      · decide
      · rcases List.mem_cons.mp hc2 with rfl | hc3
        · decide
        · exact afterBaseMarker_chars rest h c hc3
    · rw [hexBody.eq_3 l (fun r he => h1 ⟨r, he⟩) (fun r he => h2 ⟨r, he⟩)] at h
      exact digitsOK_chars l h

theorem signedBody_chars (l : List Char) (h : signedBody l = true) :
    ∀ c ∈ l, pyIntChar c = true := by
  by_cases h1 : ∃ rest, l = '+' :: rest
  · obtain ⟨rest, rfl⟩ := h1
    rw [signedBody] at h
    intro c hc
    rcases List.mem_cons.mp hc with rfl | hc2
    · decide
    · exact hexBody_chars rest h c hc2
  · by_cases h2 : ∃ rest, l = '-' :: rest
    · obtain ⟨rest, rfl⟩ := h2
      rw [signedBody] at h
      intro c hc
      rcases List.mem_cons.mp hc with rfl | hc2
      · decide
      · exact hexBody_chars rest h c hc2
    · rw [signedBody.eq_3 l (fun r he => h1 ⟨r, he⟩) (fun r he => h2 ⟨r, he⟩)] at h
      exact hexBody_chars l h

theorem pyIntHexValid_chars (s : String) (h : pyIntHexValid s = true) :
    ∀ c ∈ s.toList, pyIntChar c = true := by
  simp only [pyIntHexValid] at h
  intro c hc
  rw [← List.takeWhile_append_dropWhile isWS s.toList] at hc
  rcases List.mem_append.mp hc with hm | hm
  · exact by simp [pyIntChar, List.mem_takeWhile_imp hm]
  · have hsplit : s.toList.dropWhile isWS =
        ((s.toList.dropWhile isWS).reverse.dropWhile isWS).reverse ++
        ((s.toList.dropWhile isWS).reverse.takeWhile isWS).reverse := by
      conv_lhs => rw [← List.reverse_reverse (s.toList.dropWhile isWS),
        ← List.takeWhile_append_dropWhile isWS (s.toList.dropWhile isWS).reverse]
      rw [List.reverse_append]
    rw [hsplit] at hm
    rcases List.mem_append.mp hm with hm2 | hm2
    · exact signedBody_chars _ h c hm2
    · have := List.mem_takeWhile_imp (List.mem_reverse.mp hm2)
      simp [pyIntChar, this]

theorem pyIntHexValid_no_slash (s : String) (h : pyIntHexValid s = true) :
    '/' ∉ s.toList := by
  intro hm
  have hch := pyIntHexValid_chars s h '/' hm
  have hf : pyIntChar '/' = false := by decide
  rw [hf] at hch
  cases hch

theorem pyIntHexValid_ne_nil (s : String) (h : pyIntHexValid s = true) :
    s.toList ≠ [] := by
  intro hnil
  simp only [pyIntHexValid, hnil, List.dropWhile_nil, List.reverse_nil] at h
  exact absurd h (by decide)

/- ----------------------------------------------------------------
String append and osJoin lemmas.
---------------------------------------------------------------- -/

theorem toList_strApp (a b : String) : (a ++ b).toList = a.toList ++ b.toList := by
  cases a; cases b; rfl

theorem str_toList_ne (s : String) (h : s ≠ "") : s.toList ≠ [] := by
  intro hl
  apply h
  cases s with
  | mk data =>
    simp only [String.toList] at hl
    rw [show data = ([] : List Char) from hl]

theorem strApp_ne_left (a b : String) (ha : a ≠ "") : a ++ b ≠ "" := by
  intro he
  have h1 := congrArg String.toList he
  rw [toList_strApp] at h1
  have h2 := List.append_eq_nil.mp h1
  exact str_toList_ne a ha h2.1

theorem osJoin2_pfx (a b : String) (hb : pyStartswith b "/" = false) :
    a.toList <+: (osJoin2 a b).toList := by
  rw [osJoin2, if_neg (by simp [hb])]
  split
  · rw [toList_strApp]
    exact List.prefix_append ..
  · rw [toList_strApp, toList_strApp, List.append_assoc]
    exact List.prefix_append ..

theorem osJoin_pfx (ps : List String) :
    ∀ a, (∀ s ∈ ps, pyStartswith s "/" = false) →
      a.toList <+: (osJoin a ps).toList := by
  induction ps with
  | nil => intro a _; exact List.prefix_rfl
  | cons s rest ih =>
    intro a h
    simp only [osJoin, List.foldl_cons]
    exact (osJoin2_pfx a s (h s (by simp))).trans
      (ih (osJoin2 a s) (fun t ht => h t (by simp [ht])))

theorem osJoin2_ne (a b : String) (ha : a ≠ "") : osJoin2 a b ≠ "" := by
  rw [osJoin2]
  split
  · next hs =>
    have hp := of_decide_eq_true hs
    intro he
    have := str_toList_ne b (fun hb => by rw [hb] at hp; cases hp with
      | intro t ht => cases ht)
    apply this
    obtain ⟨t, ht⟩ := hp
    have := congrArg String.toList he
    exact this
  · split
    · exact strApp_ne_left a b ha
    · exact strApp_ne_left (a ++ "/") b (strApp_ne_left a "/" ha)

theorem osJoin_ne (ps : List String) : ∀ a, a ≠ "" → osJoin a ps ≠ "" := by
  induction ps with
  | nil => intro a ha; exact ha
  | cons s rest ih =>
    intro a ha
    simp only [osJoin, List.foldl_cons]
    exact ih (osJoin2 a s) (osJoin2_ne a s ha)

/- ----------------------------------------------------------------
Shard and digestpath lemmas.
---------------------------------------------------------------- -/

theorem mem_shard_chars (st : uHashFS) (d s : String) (hs : s ∈ st.shard d) :
    ∀ c ∈ s.toList, c ∈ d.toList := by
  intro c hc
  have hs2 : s ∈ ((List.range st.depth).map
      (fun i => pySlice d (i * st.width) (st.width * (i + 1)))) ++ [d] := by
    have := hs
    rw [uHashFS.shard, compact] at this
    exact List.mem_of_mem_filter this
  rcases List.mem_append.mp hs2 with hm | hm
  · obtain ⟨i, _, rfl⟩ := List.mem_map.mp hm
    simp only [pySlice, String.toList] at hc
    exact List.mem_of_mem_drop (List.mem_of_mem_take hc)
  · simp only [List.mem_singleton] at hm
    rw [hm] at hc
    exact hc

theorem shard_no_slash (st : uHashFS) (d : String) (hv : pyIntHexValid d = true) :
    ∀ s ∈ st.shard d, pyStartswith s "/" = false := by
  intro s hs
  cases hps : pyStartswith s "/" with
  | false => rfl
  | true =>
    have hp := of_decide_eq_true hps
    obtain ⟨t, ht⟩ := hp
    have hmem : '/' ∈ s.toList := by
      rw [← ht]
      simp
    exact absurd (mem_shard_chars st d s hs '/' hmem) (pyIntHexValid_no_slash d hv)

theorem digestpath_inv (st : uHashFS) (d p : String) (h : st.digestpath d = .ok p) :
    strLen d = st.digestlen ∧ pyIntHexValid d = true ∧
      p = osJoin st.root (st.shard d) := by
  rw [uHashFS.digestpath] at h
  by_cases h1 : strLen d ≠ st.digestlen
  · rw [if_pos h1] at h
    cases h
  · rw [if_neg h1] at h
    by_cases h2 : pyIntHexValid d = false
    · rw [if_pos h2] at h
      cases h
    · rw [if_neg h2] at h
      refine ⟨by omega, ?_, ?_⟩
      · cases hb : pyIntHexValid d with
        | false => exact absurd hb h2
        | true => rfl
      · cases h
        rfl

theorem digestpath_startswith (st : uHashFS) (d p : String)
    (h : st.digestpath d = .ok p) : pyStartswith p st.root = true := by
  obtain ⟨_, hv, hp⟩ := digestpath_inv st d p h
  rw [hp, pyStartswith]
  exact decide_eq_true (osJoin_pfx (st.shard d) st.root (shard_no_slash st d hv))

/- ----------------------------------------------------------------
splitOnSep and unshard lemmas.
---------------------------------------------------------------- -/

theorem splitOnSep_ne_nil (l : List Char) : splitOnSep l ≠ [] := by
  cases l with
  | nil => simp [splitOnSep]
  | cons c rest =>
    simp only [splitOnSep]
    split
    · simp
    · cases hr : splitOnSep rest with
      | nil => simp
      | cons h t => simp

theorem splitOnSep_no_sep (l : List Char) (h : '/' ∉ l) : splitOnSep l = [l] := by
  induction l with
  | nil => rfl
  | cons c rest ih =>
    have hc : c ≠ '/' := fun he => h (by rw [he]; simp)
    have hrest : '/' ∉ rest := fun hm => h (by simp [hm])
    simp only [splitOnSep, ih hrest]
    rw [if_neg hc]

theorem splitOnSep_len2 (l : List Char) (h : '/' ∈ l) :
    2 ≤ (splitOnSep l).length := by
  induction l with
  | nil => cases h
  | cons c rest ih =>
    simp only [splitOnSep]
    by_cases hc : c = '/'
    · rw [if_pos hc]
      have := splitOnSep_ne_nil rest
      have hlen : 0 < (splitOnSep rest).length := List.length_pos.mpr this
      simp only [List.length_cons]
      omega
    · rw [if_neg hc]
      have hmem : '/' ∈ rest := by
        rcases List.mem_cons.mp h with he | hm
        · exact absurd he.symm hc
        · exact hm
      have h2 := ih hmem
      cases hr : splitOnSep rest with
      | nil => exact absurd hr (splitOnSep_ne_nil rest)
      | cons hd t =>
        rw [hr] at h2
        simp only [List.length_cons] at h2 ⊢
        omega

theorem lastOr_irrel {α : Type} : ∀ (l : List α) (a d d' : α),
    lastOr (a :: l) d = lastOr (a :: l) d'
  | [], _, _, _ => rfl
  | b :: t, a, d, d' => by
    simp only [lastOr]
    exact lastOr_irrel t b d d'

theorem lastOr_cons {α : Type} (l : List α) (a d : α) :
    lastOr (a :: l) d = lastOr l a := by
  cases l with
  | nil => rfl
  | cons b t =>
    simp only [lastOr]
    exact lastOr_irrel t b d a

theorem splitOnSep_last (dl : List Char) (hdl : '/' ∉ dl) :
    ∀ xs, lastOr (splitOnSep (xs ++ '/' :: dl)) [] = dl := by
  intro xs
  induction xs with
  | nil =>
    simp only [List.nil_append, splitOnSep, if_pos rfl, splitOnSep_no_sep dl hdl]
    rfl
  | cons c xs ih =>
    have hmem : '/' ∈ xs ++ '/' :: dl := by simp
    have hlen := splitOnSep_len2 _ hmem
    simp only [List.cons_append, splitOnSep]
    cases hr : splitOnSep (xs ++ '/' :: dl) with
    | nil => exact absurd hr (splitOnSep_ne_nil _)
    | cons h1 rrest =>
      cases rrest with
      | nil =>
        rw [hr] at hlen
        simp at hlen
      | cons h2 t =>
        rw [hr] at ih
        by_cases hc : c = '/'
        · rw [if_pos hc, lastOr_cons]
          exact ih
        · rw [if_neg hc]
          rw [lastOr_cons] at ih ⊢
          rw [← ih]
          exact lastOr_irrel t h2 (c :: h1) h1

theorem osJoin2_toList_snoc (a b : String) (ha : a ≠ "")
    (hb : pyStartswith b "/" = false) :
    ∃ xs, (osJoin2 a b).toList = xs ++ '/' :: b.toList := by
  rw [osJoin2, if_neg (by simp [hb])]
  split
  · next hcond =>
    have he : pyEndswith a "/" = true := by
      rcases hcond with he | he
      · exact absurd he ha
      · exact he
    have hsuf := of_decide_eq_true he
    obtain ⟨zs, hzs⟩ := hsuf
    refine ⟨zs, ?_⟩
    rw [toList_strApp, ← hzs]
    simp
  · refine ⟨a.toList, ?_⟩
    rw [toList_strApp, toList_strApp]
    simp

theorem osJoin_last (a : String) (segs : List String) (d : String) (ha : a ≠ "")
    (hd : pyStartswith d "/" = false) :
    ∃ xs, (osJoin a (segs ++ [d])).toList = xs ++ '/' :: d.toList := by
  rw [osJoin, List.foldl_append]
  simp only [List.foldl_cons, List.foldl_nil]
  exact osJoin2_toList_snoc (osJoin a segs) d (osJoin_ne segs a ha) hd

/- ----------------------------------------------------------------
Store operation lemmas.
---------------------------------------------------------------- -/

theorem getFile_none_of_isFile_false (fs : FS) (p : String)
    (h : fs.isFile p = false) : fs.getFile p = none := by
  rw [FS.isFile] at h
  cases hg : fs.getFile p with
  | none => rfl
  | some c => rw [hg] at h; simp at h

theorem getFile_some_of_isFile (fs : FS) (p : String)
    (h : fs.isFile p = true) : ∃ c, fs.getFile p = some c := by
  rw [FS.isFile] at h
  cases hg : fs.getFile p with
  | none => rw [hg] at h; simp at h
  | some c => exact ⟨c, rfl⟩

theorem computehash_lineSplit (st : uHashFS) (b : Bytes) :
    st.computehash (lineSplit b) (some []) = (st.hashfn b, some b) := by
  simp only [uHashFS.computehash, streamFold_spec, List.nil_append]
  rw [lineSplit_concat]
  simp

theorem link_eexist (fs : FS) (t p : String)
    (hdir : fs.isDir (dirname p) = true) (hfile : fs.isFile p = true) :
    fs.link t p = .error .eexist := by
  rw [FS.link, if_neg (by simp [hdir]), if_pos hfile]

theorem link_fresh (fs : FS) (t p : String) (c : Bytes)
    (hdir : fs.isDir (dirname p) = true) (hnofile : fs.isFile p = false)
    (hsome : fs.getFile t = some c) :
    fs.link t p = .ok (FS.mk ((p, c) :: fs.files) fs.dirs) := by
  rw [FS.link, if_neg (by simp [hdir]), if_neg (by simp [hnofile]), hsome]

theorem mvtemp_dup (st : uHashFS) (fs : FS) (t p : String)
    (hdir : fs.isDir (dirname p) = true) (hfile : fs.isFile p = true) :
    st.mvtemp fs t p = .ok (fs.unlink t, true) := by
  rw [uHashFS.mvtemp, link_eexist fs t p hdir hfile]

theorem mvtemp_fresh (st : uHashFS) (fs : FS) (t p : String) (c : Bytes)
    (hdir : fs.isDir (dirname p) = true) (hnofile : fs.isFile p = false)
    (hsome : fs.getFile t = some c) :
    st.mvtemp fs t p =
      .ok (FS.mk (removeFile ((p, c) :: fs.files) t) fs.dirs, false) := by
  rw [uHashFS.mvtemp, link_fresh fs t p c hdir hnofile hsome]
  rfl

theorem mktemp_dir_exists (st : uHashFS) (fs : FS) (t : String)
    (htmp : fs.isDir st.tmproot = true) :
    st.mktemp fs t = FS.mk ((t, []) :: fs.files) fs.dirs := by
  rw [uHashFS.mktemp]
  simp only [htmp, if_true]

theorem putstr_fresh (st : uHashFS) (fs : FS) (b : Bytes) (t fp : String)
    (hfp : st.digestpath (st.hashfn b) = .ok fp)
    (h0 : fs.isFile fp = false)
    (hne : t ≠ fp)
    (hdir : fs.isDir (dirname fp) = true)
    (htmp : fs.isDir st.tmproot = true) :
    st.putstr fs b t =
      .ok (FS.mk ((fp, b) :: removeFile fs.files t) fs.dirs,
        HashAddress.mk (st.hashfn b) fp false) := by
  obtain ⟨files, dirs⟩ := fs
  rw [uHashFS.putstr, mktemp_dir_exists st _ t htmp, computehash_lineSplit]
  simp only [FS.writeFile, Option.getD_some]
  have hrm : removeFile ((t, ([] : Bytes)) :: files) t = removeFile files t := by
    simp [removeFile]
  simp only [hrm]
  rw [hfp]
  dsimp only
  have hfs2dir : (FS.mk ((t, b) :: removeFile files t) dirs).isDir (dirname fp) = true := hdir
  have hfs2nofile : (FS.mk ((t, b) :: removeFile files t) dirs).isFile fp = false := by
    simp only [FS.isFile, FS.getFile, lookupFile, if_neg hne]
    rw [lookupFile_removeFile_ne files t fp (fun he => hne he.symm)]
    exact h0
  have hfs2get : (FS.mk ((t, b) :: removeFile files t) dirs).getFile t = some b := by
    simp [FS.getFile, lookupFile]
  rw [mvtemp_fresh st _ t fp b hfs2dir hfs2nofile hfs2get]
  have hfpt : ¬ (fp = t) := fun he => hne he.symm
  have hrm2 : removeFile ((fp, b) :: (t, b) :: removeFile files t) t =
      (fp, b) :: removeFile files t := by
    simp [removeFile, hfpt, removeFile_removeFile]
  simp only [hrm2]

theorem putstr_dup (st : uHashFS) (fs : FS) (b : Bytes) (t fp : String)
    (hfp : st.digestpath (st.hashfn b) = .ok fp)
    (h1 : fs.isFile fp = true)
    (hne : t ≠ fp)
    (ht : fs.isFile t = false)
    (hdir : fs.isDir (dirname fp) = true)
    (htmp : fs.isDir st.tmproot = true) :
    st.putstr fs b t = .ok (fs, HashAddress.mk (st.hashfn b) fp true) := by
  obtain ⟨files, dirs⟩ := fs
  rw [uHashFS.putstr, mktemp_dir_exists st _ t htmp, computehash_lineSplit]
  simp only [FS.writeFile, Option.getD_some]
  have hrm : removeFile ((t, ([] : Bytes)) :: files) t = removeFile files t := by
    simp [removeFile]
  have htn : lookupFile files t = none :=
    getFile_none_of_isFile_false (FS.mk files dirs) t ht
  rw [lookupFile_none_removeFile files t htn] at hrm
  simp only [hrm]
  rw [hfp]
  dsimp only
  have hfs2dir : (FS.mk ((t, b) :: files) dirs).isDir (dirname fp) = true := hdir
  have hfs2file : (FS.mk ((t, b) :: files) dirs).isFile fp = true := by
    simp only [FS.isFile, FS.getFile, lookupFile, if_neg hne]
    exact h1
  rw [mvtemp_dup st _ t fp hfs2dir hfs2file]
  have hun : (FS.mk ((t, b) :: files) dirs).unlink t = FS.mk files dirs := by
    simp [FS.unlink, removeFile, lookupFile_none_removeFile files t htn]
  rw [hun]

theorem pySlice_len (d : String) (w i : Nat) (hw : 0 < w)
    (hle : (i + 1) * w ≤ strLen d) :
    strLen (pySlice d (i * w) (w * (i + 1))) = w := by
  simp only [pySlice, strLen, String.toList, List.length_take, List.length_drop]
  have h1 : w * (i + 1) = i * w + w := by ring
  have h2 : (i + 1) * w = i * w + w := by ring
  rw [h2] at hle
  rw [h1]
  simp only [strLen, String.toList] at hle
  generalize i * w = k at hle ⊢
  omega

theorem shard_split (st : uHashFS) (d : String) (hw : 0 < st.width)
    (hwd : st.depth * st.width ≤ strLen d) (hd0 : d.toList ≠ []) :
    st.shard d = ((List.range st.depth).map
      (fun i => pySlice d (i * st.width) (st.width * (i + 1)))) ++ [d] := by
  rw [uHashFS.shard, compact]
  apply List.filter_eq_self.mpr
  intro s hs
  rcases List.mem_append.mp hs with hm | hm
  · obtain ⟨i, hi, rfl⟩ := List.mem_map.mp hm
    have hi2 : (i + 1) * st.width ≤ strLen d := by
      have h3 : i + 1 ≤ st.depth := List.mem_range.mp hi
      calc (i + 1) * st.width ≤ st.depth * st.width := Nat.mul_le_mul_right _ h3
      _ ≤ strLen d := hwd
    have hlen := pySlice_len d st.width i hw hi2
    apply decide_eq_true
    intro hnil
    rw [strLen, hnil] at hlen
    simp at hlen
    omega
  · simp only [List.mem_singleton] at hm
    apply decide_eq_true
    rw [hm]
    exact hd0

theorem no_slash_startswith (s : String) (h : '/' ∉ s.toList) :
    pyStartswith s "/" = false := by
  cases hps : pyStartswith s "/" with
  | false => rfl
  | true =>
    obtain ⟨t, ht⟩ := of_decide_eq_true hps
    exact absurd (by rw [← ht]; simp : '/' ∈ s.toList) h

/- ----------------------------------------------------------------
Concrete fixtures used by witnesses and counterexamples.
---------------------------------------------------------------- -/

/-- A total stand-in hash: every content digests to "ab". -/
def demoHash : Bytes → String := fun _ => "ab"

/-- A small store: one shard level of width 1, two-character digests. -/
def demoStore : uHashFS := uHashFS.mk "/store" "/tmpd" 1 1 demoHash 2

/-- A filesystem with the staging and shard directories present. -/
def demoFS : FS := FS.mk [] ["/", "/tmpd", "/store", "/store/a"]

/-- The default sha256 configuration: depth 3, width 1, 64-digit digests. -/
def sha256Store : uHashFS := uHashFS.mk "/store" "/store" 3 1 (fun _ => "") 64

/-- A 64-character digest whose first character is the non-hex sign '+'. -/
def plusDigest : String := String.mk ('+' :: List.replicate 63 '0')

/- ----------------------------------------------------------------
Claim theorems.
---------------------------------------------------------------- -/

/-- Claim C2: on every terminal path of the commit operation, that is,
whenever _mvtemp returns (link succeeded, link found the final path
already present, or link was retried successfully after creating the
missing intermediate directories), the staged temporary file has been
removed from the filesystem. -/
theorem c2_staged_removed (st : uHashFS) (fs : FS) (t p : String) (fs' : FS)
    (d : Bool) (h : st.mvtemp fs t p = .ok (fs', d)) : fs'.isFile t = false := by
  rw [uHashFS.mvtemp] at h
  cases hl : fs.link t p with
  | ok fs1 =>
    rw [hl] at h
    injection h with h2
    injection h2 with h3 h4
    rw [← h3]
    simp [FS.unlink, FS.isFile, FS.getFile, lookupFile_removeFile_self]
  | error e =>
    cases e with
    | eexist =>
      rw [hl] at h
      injection h with h2
      injection h2 with h3 h4
      rw [← h3]
      simp [FS.unlink, FS.isFile, FS.getFile, lookupFile_removeFile_self]
    | enoent =>
      rw [hl] at h
      dsimp only at h
      cases hl2 : (fs.makedirs (dirname p)).link t p with
      | ok fs2 =>
        rw [hl2] at h
        injection h with h2
        injection h2 with h3 h4
        rw [← h3]
        simp [FS.unlink, FS.isFile, FS.getFile, lookupFile_removeFile_self]
      | error e2 =>
        rw [hl2] at h
        cases h

/-- The filesystem with one staged file, used in the C2 witness. -/
def fsC2 : FS := FS.mk [("/tmpd/_t2w", [5])] ["/", "/tmpd", "/store", "/store/a"]

/-- The committed state the C2 witness run produces. -/
def fsC2r : FS := FS.mk [("/store/a/ab", [5])] ["/", "/tmpd", "/store", "/store/a"]

theorem c2_staged_removed_witness :
    demoStore.mvtemp fsC2 "/tmpd/_t2w" "/store/a/ab" = .ok (fsC2r, false) ∧
      fsC2r.isFile "/tmpd/_t2w" = false :=
  ⟨rfl, c2_staged_removed demoStore fsC2 "/tmpd/_t2w" "/store/a/ab" fsC2r false rfl⟩

/-- Claim C10: every digest that passes digestpath validation yields a path
that begins with the store root, so the containment assertion inside
delete always holds and delete never fails with the assertion error. -/
theorem c10_delete_safe :
    (∀ (st : uHashFS) (d p : String), st.digestpath d = .ok p →
      pyStartswith p st.root = true) ∧
    (∀ (st : uHashFS) (fs : FS) (d : String),
      st.delete fs d ≠ .error .assertionError) := by
  refine ⟨fun st d p h => digestpath_startswith st d p h, ?_⟩
  intro st fs d h
  rw [uHashFS.delete] at h
  cases hd : st.digestpath d with
  | error e =>
    rw [hd] at h
    simp at h
  | ok p =>
    rw [hd] at h
    dsimp only at h
    rw [digestpath_startswith st d p hd] at h
    simp only [Bool.true_eq_false, if_false] at h
    split at h
    · cases h
    · cases h

theorem c10_delete_safe_witness :
    demoStore.digestpath "ab" = .ok "/store/a/ab" ∧
      pyStartswith "/store/a/ab" "/store" = true :=
  ⟨rfl, c10_delete_safe.1 demoStore "ab" "/store/a/ab" rfl⟩

/-- Claim C3, evaluated at the failing input: the 64-character string
"+000...0" has the correct length and contains the non-hexadecimal
character '+', yet digestpath accepts it and returns a path, because
int(digest, 16) parses an optional sign (and likewise tolerates
surrounding whitespace, a 0x marker, and underscores).  This contradicts
both the claim and the method's own docstring, which promise a
malformed-digest ValueError for any non-hex content. -/
theorem c3_digest_validation_eval :
    strLen plusDigest = 64 ∧ isHexDigitCh '+' = false ∧
      sha256Store.digestpath plusDigest = .ok ("/store/+/0/0/" ++ plusDigest) :=
  ⟨rfl, rfl, rfl⟩

/-- Claim C4: for a digest that digestpath accepts, made of hexadecimal
characters, under a store configuration that is not misconfigured
(depth, width positive, depth * width within the digest length), shard
produces exactly depth directory segments of width characters followed by
the whole digest, and unshard recovers the digest from the derived path. -/
theorem c4_shard_unshard (st : uHashFS) (d p : String)
    (hdep : 0 < st.depth) (hw : 0 < st.width)
    (hcfg : st.depth * st.width ≤ st.digestlen)
    (hroot : st.root ≠ "")
    (hhex : d.toList.all isHexDigitCh = true)
    (h : st.digestpath d = .ok p) :
    (∃ segs, st.shard d = segs ++ [d] ∧ segs.length = st.depth ∧
      ∀ s ∈ segs, strLen s = st.width) ∧
    unshard p = .ok d := by
  obtain ⟨hl, hv, hp⟩ := digestpath_inv st d p h
  have hmul : 0 < st.depth * st.width := Nat.mul_pos hdep hw
  have hlen : d.toList ≠ [] := by
    intro hnil
    rw [strLen, hnil] at hl
    simp at hl
    omega
  have hwd : st.depth * st.width ≤ strLen d := by rw [hl]; exact hcfg
  have hshard := shard_split st d hw hwd hlen
  have hnoslash : '/' ∉ d.toList := by
    intro hm
    have := List.all_eq_true.mp hhex '/' hm
    exact absurd this (by decide)
  constructor
  · refine ⟨_, hshard, by simp, ?_⟩
    intro s hs
    obtain ⟨i, hi, rfl⟩ := List.mem_map.mp hs
    have hi2 : (i + 1) * st.width ≤ strLen d := by
      have h3 : i + 1 ≤ st.depth := List.mem_range.mp hi
      calc (i + 1) * st.width ≤ st.depth * st.width := Nat.mul_le_mul_right _ h3
      _ ≤ strLen d := hwd
    exact pySlice_len d st.width i hw hi2
  · have hdstart : pyStartswith d "/" = false := no_slash_startswith d hnoslash
    rw [hshard] at hp
    obtain ⟨xs, hxs⟩ := osJoin_last st.root _ d hroot hdstart
    rw [← hp] at hxs
    have hin : '/' ∈ p.toList := by rw [hxs]; simp
    rw [unshard, if_pos hin, lastSeg, hxs, splitOnSep_last d.toList hnoslash xs]
    rfl

theorem c4_shard_unshard_witness :
    demoStore.digestpath "ab" = .ok "/store/a/ab" ∧
      ((∃ segs, demoStore.shard "ab" = segs ++ ["ab"] ∧
        segs.length = demoStore.depth ∧
        ∀ s ∈ segs, strLen s = demoStore.width) ∧
      unshard "/store/a/ab" = .ok "ab") :=
  ⟨rfl, c4_shard_unshard demoStore "ab" "/store/a/ab" (by decide) (by decide)
    (by decide) (by decide) rfl rfl⟩

/- ----------------------------------------------------------------
Corruption-scan lemmas for C9.
---------------------------------------------------------------- -/

theorem lookupFile_isSome_of_mem (l : List (String × Bytes)) (e : String × Bytes)
    (h : e ∈ l) : (lookupFile l e.1).isSome = true := by
  induction l with
  | nil => cases h
  | cons f rest ih =>
    obtain ⟨q, c⟩ := f
    rcases List.mem_cons.mp h with rfl | h2
    · simp [lookupFile]
    · by_cases hq : q = e.1
      · simp [lookupFile, hq]
      · simp only [lookupFile, if_neg hq]
        exact ih h2

theorem mem_files_isSome (st : uHashFS) (fs : FS) :
    ∀ p ∈ st.files fs, (fs.getFile p).isSome = true := by
  intro p hp
  rw [uHashFS.files] at hp
  have hp2 := List.mem_of_mem_filter hp
  obtain ⟨e, he, rfl⟩ := List.mem_map.mp hp2
  exact lookupFile_isSome_of_mem fs.files e he

theorem corruptedGo_ok (st : uHashFS) (fs : FS)
    (Hlen : ∀ c, strLen (st.hashfn c) = st.digestlen)
    (Hhex : ∀ c, pyIntHexValid (st.hashfn c) = true) :
    ∀ ps : List String,
      (∀ p ∈ ps, (fs.getFile p).isSome = true ∧
        strLen (lastSeg p) = st.digestlen) →
      ∃ l, st.corruptedGo fs ps = .ok l := by
  intro ps
  induction ps with
  | nil => intro _; exact ⟨[], rfl⟩
  | cons p rest ih =>
    intro hp
    obtain ⟨hsome, hblen⟩ := hp p (by simp)
    obtain ⟨c, hc⟩ := Option.isSome_iff_exists.mp hsome
    rw [uHashFS.corruptedGo, hc]
    dsimp only
    have hd1 : (hash_file st.hashfn c none).1 = st.hashfn c := by
      rw [hash_file_spec]
    rw [hd1]
    rw [if_neg (by rw [Hlen c, hblen]; omega)]
    have hdg : st.digestpath (st.hashfn c) =
        .ok (osJoin st.root (st.shard (st.hashfn c))) := by
      rw [uHashFS.digestpath, if_neg (by rw [Hlen c]; omega),
        if_neg (by rw [Hhex c]; simp)]
    rw [hdg]
    dsimp only
    obtain ⟨l, hl⟩ := ih (fun q hq => hp q (by simp [hq]))
    rw [hl]
    exact ⟨_, rfl⟩

theorem corruptedGo_bad (st : uHashFS) (fs : FS)
    (Hlen : ∀ c, strLen (st.hashfn c) = st.digestlen)
    (Hhex : ∀ c, pyIntHexValid (st.hashfn c) = true) :
    ∀ ps : List String,
      (∀ p ∈ ps, (fs.getFile p).isSome = true) →
      (∃ p ∈ ps, strLen (lastSeg p) ≠ st.digestlen) →
      st.corruptedGo fs ps = .error .assertionError := by
  intro ps
  induction ps with
  | nil =>
    intro _ hex
    obtain ⟨q, hq, _⟩ := hex
    cases hq
  | cons p rest ih =>
    intro hsome hex
    obtain ⟨c, hc⟩ := Option.isSome_iff_exists.mp (hsome p (by simp))
    rw [uHashFS.corruptedGo, hc]
    dsimp only
    have hd1 : (hash_file st.hashfn c none).1 = st.hashfn c := by
      rw [hash_file_spec]
    rw [hd1]
    by_cases hb : strLen (lastSeg p) = st.digestlen
    · rw [if_neg (by rw [Hlen c, hb]; omega)]
      have hdg : st.digestpath (st.hashfn c) =
          .ok (osJoin st.root (st.shard (st.hashfn c))) := by
        rw [uHashFS.digestpath, if_neg (by rw [Hlen c]; omega),
          if_neg (by rw [Hhex c]; simp)]
      rw [hdg]
      dsimp only
      have hrest : ∃ q ∈ rest, strLen (lastSeg q) ≠ st.digestlen := by
        obtain ⟨q, hq, hqne⟩ := hex
        rcases List.mem_cons.mp hq with rfl | hq2
        · exact absurd hb hqne
        · exact ⟨q, hq2, hqne⟩
      rw [ih (fun q hq => hsome q (by simp [hq])) hrest]
    · rw [if_pos (by rw [Hlen c]; omega)]

/-- Claim C9: the corruption scan is failure-free exactly under the
precondition that every file under root has a basename of digest length;
a single file with a basename of any other length (such as a leftover
staging file when the staging root lies inside root) makes corrupted()
fail with an assertion error rather than yield or skip that file. -/
theorem c9_corrupted_assert (st : uHashFS) (fs : FS)
    (Hlen : ∀ c, strLen (st.hashfn c) = st.digestlen)
    (Hhex : ∀ c, pyIntHexValid (st.hashfn c) = true) :
    ((∀ p ∈ st.files fs, strLen (lastSeg p) = st.digestlen) →
      ∃ l, st.corrupted fs = .ok l) ∧
    ((∃ p ∈ st.files fs, strLen (lastSeg p) ≠ st.digestlen) →
      st.corrupted fs = .error .assertionError) := by
  constructor
  · intro hall
    exact corruptedGo_ok st fs Hlen Hhex (st.files fs)
      (fun p hp => ⟨mem_files_isSome st fs p hp, hall p hp⟩)
  · intro hex
    exact corruptedGo_bad st fs Hlen Hhex (st.files fs)
      (mem_files_isSome st fs) hex

/-- A store tree whose only file sits at its correct sharded location. -/
def fsC9ok : FS :=
  FS.mk [("/store/a/ab", [7])] ["/", "/tmpd", "/store", "/store/a"]

/-- A store tree that also holds a leftover staging file under root. -/
def fsC9bad : FS :=
  FS.mk [("/store/a/ab", [7]), ("/store/_tmpx", [9])]
    ["/", "/tmpd", "/store", "/store/a"]

theorem c9_corrupted_assert_witness :
    (∃ l, demoStore.corrupted fsC9ok = .ok l) ∧
      demoStore.corrupted fsC9bad = .error .assertionError :=
  ⟨(c9_corrupted_assert demoStore fsC9ok (fun _ => rfl) (fun _ => rfl)).1
      (by decide),
    (c9_corrupted_assert demoStore fsC9bad (fun _ => rfl) (fun _ => rfl)).2
      (by decide)⟩

/- ----------------------------------------------------------------
putfile lemmas and claims C6, C7, C8.
---------------------------------------------------------------- -/

theorem putfinish_src (st : uHashFS) (fs1 : FS) (t dg : String) (tc : Bytes)
    (src : uHashFS.Source) (fs' : FS) (a : HashAddress) (s : uHashFS.Source)
    (h : st.putfinish fs1 t dg tc src = .ok (fs', a, s)) : s = src := by
  rw [uHashFS.putfinish] at h
  cases hd : st.digestpath dg with
  | error e => rw [hd] at h; cases h
  | ok fp =>
    rw [hd] at h
    dsimp only at h
    cases hmv : st.mvtemp (fs1.writeFile t tc) t fp with
    | error e => cases e <;> rw [hmv] at h <;> cases h
    | ok pr =>
      rw [hmv] at h
      injection h with h2
      injection h2 with h3 h4
      injection h4 with h5 h6
      exact h6.symm

/-- Claim C7 (amended): put-by-path raises the containment ValueError
exactly when the resolved source path falls inside root's tree (the
self-storage guard); a source outside root never triggers it. -/
theorem c7_containment_amended (st : uHashFS) (fs : FS) (p t : String) :
    st.putfile fs (.path p) t = .error (.valueWithinRoot, fs) ↔
      path_is_parent st.root p = true := by
  constructor
  · intro h
    by_cases hc : path_is_parent st.root p = true
    · exact hc
    · exfalso
      rw [uHashFS.putfile] at h
      dsimp only [uHashFS.sourceName] at h
      rw [if_neg hc] at h
      cases hf : (st.mktemp fs t).getFile p with
      | none => rw [hf] at h; simp at h
      | some c =>
        rw [hf] at h
        dsimp only [uHashFS.putfinish] at h
        cases hd : st.digestpath (hash_file st.hashfn c (some [])).1 with
        | error e => rw [hd] at h; simp at h
        | ok fp =>
          rw [hd] at h
          dsimp only at h
          cases hmv : st.mvtemp (((st.mktemp fs t)).writeFile t
              ((hash_file st.hashfn c (some [])).2.getD [])) t fp with
          | error e => cases e <;> rw [hmv] at h <;> simp at h
          | ok pr => rw [hmv] at h; cases h
  · intro hc
    rw [uHashFS.putfile]
    dsimp only [uHashFS.sourceName]
    rw [if_pos hc]

/-- Claim C7 counterexample: the source "/store/x" lies inside the store
root, and putfile raises the containment ValueError for it, while the
claim as stated says the error fires exactly for sources outside root and
that a put from a path within the constraint proceeds. -/
theorem c7_containment_counterexample :
    path_is_parent demoStore.root "/store/x" = true ∧
      demoStore.putfile demoFS (.path "/store/x") "/tmpd/_t7" =
        .error (.valueWithinRoot, demoFS) :=
  ⟨rfl, rfl⟩

theorem c7_containment_witness :
    demoStore.putfile demoFS (.path "/store/y") "/tmpd/_t7w" =
      .error (.valueWithinRoot, demoFS) :=
  (c7_containment_amended demoStore demoFS "/store/y" "/tmpd/_t7w").mpr rfl

/-- Claim C6 (amended): a put source that fails name interpretation (no
name attribute and rejected by the Path constructor) surfaces its
TypeError before any staging I/O, with the filesystem unchanged; but a
source that passes interpretation while yielding chunks the hasher
cannot accept (a text-mode handle) raises its TypeError only after the
staging temporary file has been created. -/
theorem c6_malformed_source_amended :
    (∀ (st : uHashFS) (fs : FS) (t : String),
      st.putfile fs .invalid t = .error (.typeError, fs)) ∧
    (∀ (st : uHashFS) (fs : FS) (nm : String) (h : Handle) (t : String),
      path_is_parent st.root nm = false →
      st.putfile fs (.thandle nm h) t = .error (.typeError, st.mktemp fs t) ∧
        (st.mktemp fs t).isFile t = true) := by
  constructor
  · intro st fs t
    rfl
  · intro st fs nm h t hpar
    constructor
    · rw [uHashFS.putfile]
      dsimp only [uHashFS.sourceName]
      rw [if_neg (by simp [hpar])]
    · rw [uHashFS.mktemp]
      simp [FS.isFile, FS.getFile, lookupFile]

/-- The staged state left behind by the C6 counterexample run. -/
def fsC6r : FS := FS.mk [("/tmpd/_t6", [])] ["/", "/tmpd", "/store", "/store/a"]

/-- Claim C6 counterexample: putting a text-mode handle (whose type the
Digest Engine cannot interpret: hasher.update raises TypeError on its
str chunks) surfaces the error only after the staging temp file exists,
contradicting the claim that no staging temporary file is created before
the error is raised. -/
theorem c6_malformed_source_counterexample :
    demoStore.putfile demoFS (.thandle "/data/t" (Handle.mk [1] 0)) "/tmpd/_t6" =
      .error (.typeError, fsC6r) ∧
    fsC6r.isFile "/tmpd/_t6" = true ∧ demoFS.isFile "/tmpd/_t6" = false :=
  ⟨rfl, rfl, rfl⟩

theorem c6_malformed_source_witness :
    demoStore.putfile demoFS .invalid "/tmpd/_t6w" =
      .error (.typeError, demoFS) ∧
    demoStore.putfile demoFS (.thandle "/data/t" (Handle.mk [2] 0)) "/tmpd/_t6w" =
      .error (.typeError, demoStore.mktemp demoFS "/tmpd/_t6w") :=
  ⟨c6_malformed_source_amended.1 demoStore demoFS "/tmpd/_t6w",
    (c6_malformed_source_amended.2 demoStore demoFS "/data/t"
      (Handle.mk [2] 0) "/tmpd/_t6w" rfl).1⟩

/-- Claim C8: hashing an already-open handle records the offset before
reading and seeks back afterwards, so the handle putfile returns (its
content and offset alike) is exactly the handle that was passed in. -/
theorem c8_handle_restored (H : Bytes → String) (h : Handle) (tmp : Option Bytes)
    (st : uHashFS) (fs : FS) (nm t : String) :
    (hash_file_handle H h tmp).2.1 = h ∧
    (∀ (fs' : FS) (a : HashAddress) (s : uHashFS.Source),
      st.putfile fs (.handle nm h) t = .ok (fs', a, s) → s = .handle nm h) := by
  constructor
  · rw [hash_file_handle_spec]
  · intro fs' a s heq
    rw [uHashFS.putfile] at heq
    dsimp only [uHashFS.sourceName] at heq
    by_cases hpar : path_is_parent st.root nm = true
    · rw [if_pos hpar] at heq; cases heq
    · rw [if_neg hpar] at heq
      rw [hash_file_handle_spec] at heq
      exact putfinish_src st (st.mktemp fs t) t _ _ _ fs' a s heq

/-- The committed state produced by the C8 witness run. -/
def fsC8r : FS :=
  FS.mk [("/store/a/ab", [1, 2, 3])] ["/", "/tmpd", "/store", "/store/a"]

/-- The address returned by the C8 witness run. -/
def addrC8 : HashAddress := HashAddress.mk "ab" "/store/a/ab" false

theorem c8_handle_restored_witness :
    demoStore.putfile demoFS (.handle "/data/f" (Handle.mk [1, 2, 3] 0))
        "/tmpd/_t8" =
      .ok (fsC8r, addrC8, .handle "/data/f" (Handle.mk [1, 2, 3] 0)) ∧
    (hash_file_handle demoHash (Handle.mk [9, 9] 1) none).2.1 =
      Handle.mk [9, 9] 1 :=
  ⟨rfl,
    (c8_handle_restored demoHash (Handle.mk [9, 9] 1) none demoStore demoFS
      "/data/f" "/tmpd/_t8").1⟩

/- ----------------------------------------------------------------
Claim C5: hashing-path equivalence across source shapes.
---------------------------------------------------------------- -/

theorem putfinish_digest (st : uHashFS) (fs1 : FS) (t dg : String) (tc : Bytes)
    (src : uHashFS.Source) (fs' : FS) (a : HashAddress) (s : uHashFS.Source)
    (h : st.putfinish fs1 t dg tc src = .ok (fs', a, s)) : a.digest = dg := by
  rw [uHashFS.putfinish] at h
  cases hd : st.digestpath dg with
  | error e => rw [hd] at h; cases h
  | ok fp =>
    rw [hd] at h
    dsimp only at h
    cases hmv : st.mvtemp (fs1.writeFile t tc) t fp with
    | error e => cases e <;> rw [hmv] at h <;> cases h
    | ok pr =>
      rw [hmv] at h
      injection h with h2
      injection h2 with h3 h4
      injection h4 with h5 h6
      rw [← h5]

theorem mktemp_getFile_ne (st : uHashFS) (fs : FS) (t p : String) (hne : t ≠ p) :
    (st.mktemp fs t).getFile p = fs.getFile p := by
  rw [uHashFS.mktemp]
  split
  · simp [FS.getFile, lookupFile, hne]
  · simp [FS.getFile, lookupFile, hne, FS.makedirs]

/-- Claim C5: hashing the same byte content through the three source
shapes, an in-memory stream via computehash, a path opened by hash_file,
and an already-open handle via hash_file_handle, produces the identical
digest, namely hashfn of the content; consequently putstr and the two
putfile shapes all return an address carrying that digest. -/
theorem c5_source_shapes (st : uHashFS) (b : Bytes) :
    (st.computehash (lineSplit b) (some [])).1 = st.hashfn b ∧
    (hash_file st.hashfn b (some [])).1 = st.hashfn b ∧
    (hash_file_handle st.hashfn (Handle.mk b 0) (some [])).1 = st.hashfn b ∧
    (∀ (fs : FS) (t : String) (fs' : FS) (a : HashAddress),
      st.putstr fs b t = .ok (fs', a) → a.digest = st.hashfn b) ∧
    (∀ (fs : FS) (p t : String) (fs' : FS) (a : HashAddress)
      (s : uHashFS.Source), t ≠ p → fs.getFile p = some b →
      st.putfile fs (.path p) t = .ok (fs', a, s) → a.digest = st.hashfn b) ∧
    (∀ (fs : FS) (nm t : String) (fs' : FS) (a : HashAddress)
      (s : uHashFS.Source),
      st.putfile fs (.handle nm (Handle.mk b 0)) t = .ok (fs', a, s) →
      a.digest = st.hashfn b) := by
  refine ⟨by rw [computehash_lineSplit], by rw [hash_file_spec],
    by rw [hash_file_handle_spec]; simp, ?_, ?_, ?_⟩
  · intro fs t fs' a heq
    rw [uHashFS.putstr, computehash_lineSplit] at heq
    dsimp only at heq
    simp only [Option.getD] at heq
    cases hd : st.digestpath (st.hashfn b) with
    | error e => rw [hd] at heq; cases heq
    | ok fp =>
      rw [hd] at heq
      dsimp only at heq
      cases hmv : st.mvtemp ((st.mktemp fs t).writeFile t b) t fp with
      | error e => cases e <;> rw [hmv] at heq <;> cases heq
      | ok pr =>
        rw [hmv] at heq
        injection heq with h2
        injection h2 with h3 h4
        rw [← h4]
  · intro fs p t fs' a s hne hget heq
    rw [uHashFS.putfile] at heq
    dsimp only [uHashFS.sourceName] at heq
    by_cases hpar : path_is_parent st.root p = true
    · rw [if_pos hpar] at heq; cases heq
    · rw [if_neg hpar] at heq
      have hg2 : (st.mktemp fs t).getFile p = some b := by
        rw [mktemp_getFile_ne st fs t p hne]; exact hget
      rw [hg2] at heq
      dsimp only at heq
      rw [hash_file_spec] at heq
      exact putfinish_digest st (st.mktemp fs t) t _ _ _ fs' a s heq
  · intro fs nm t fs' a s heq
    rw [uHashFS.putfile] at heq
    dsimp only [uHashFS.sourceName] at heq
    by_cases hpar : path_is_parent st.root nm = true
    · rw [if_pos hpar] at heq; cases heq
    · rw [if_neg hpar] at heq
      rw [hash_file_handle_spec] at heq
      have hdz : (Handle.mk b 0).content.drop (Handle.mk b 0).pos = b := by simp
      rw [hdz] at heq
      exact putfinish_digest st (st.mktemp fs t) t _ _ _ fs' a s heq

/-- Result filesystem shared by the C5 witness runs. -/
def fsC5r : FS := FS.mk [("/store/a/ab", [7])] ["/", "/tmpd", "/store", "/store/a"]

/-- Address returned by every C5 witness run. -/
def addrC5 : HashAddress := HashAddress.mk "ab" "/store/a/ab" false

/-- Source filesystem holding the file put by path in the C5 witness. -/
def fsC5src : FS := FS.mk [("/data/f", [7])] ["/", "/tmpd", "/store", "/store/a"]

/-- Result of the put-by-path C5 witness run. -/
def fsC5pr : FS :=
  FS.mk [("/store/a/ab", [7]), ("/data/f", [7])] ["/", "/tmpd", "/store", "/store/a"]

theorem c5_source_shapes_witness :
    demoStore.putstr demoFS [7] "/tmpd/_t5a" = .ok (fsC5r, addrC5) ∧
    demoStore.putfile fsC5src (.path "/data/f") "/tmpd/_t5b" =
      .ok (fsC5pr, addrC5, .path "/data/f") ∧
    demoStore.putfile demoFS (.handle "/data/f" (Handle.mk [7] 0)) "/tmpd/_t5c" =
      .ok (fsC5r, addrC5, .handle "/data/f" (Handle.mk [7] 0)) ∧
    addrC5.digest = demoStore.hashfn [7] :=
  ⟨rfl, rfl, rfl,
    (c5_source_shapes demoStore [7]).2.2.2.1 demoFS "/tmpd/_t5a" fsC5r addrC5 rfl⟩

/- ----------------------------------------------------------------
Link inversion lemmas and claim C1.
---------------------------------------------------------------- -/

theorem link_ok_isFile_false (gs : FS) (t p : String) (g1 : FS)
    (h : gs.link t p = .ok g1) : gs.isFile p = false := by
  rw [FS.link] at h
  split at h
  · cases h
  · split at h
    · cases h
    · next h2 =>
      cases hb : gs.isFile p with
      | false => rfl
      | true => exact absurd hb h2

theorem link_eexist_isFile (gs : FS) (t p : String)
    (h : gs.link t p = .error .eexist) : gs.isFile p = true := by
  rw [FS.link] at h
  split at h
  · cases h
  · split at h
    · next h2 => exact h2
    · split at h
      · cases h
      · cases h

theorem makedirs_isFile (gs : FS) (d p : String) :
    (gs.makedirs d).isFile p = gs.isFile p := rfl

/-- Claim C1: the committer reports a duplicate exactly when the final
path already existed; in that case the staged file is simply discarded
(the result state is the input state minus the staged name, so the
existing final file is untouched and no bytes are re-read or compared);
and putting the same content twice yields isDuplicate false then true,
leaving exactly one stored file for that digest. -/
theorem c1_commit_dedup (st : uHashFS) (fs : FS) (b : Bytes) (fp t1 t2 : String)
    (hfp : st.digestpath (st.hashfn b) = .ok fp)
    (h0 : fs.isFile fp = false)
    (hne1 : t1 ≠ fp) (hne2 : t2 ≠ fp)
    (ht2 : fs.isFile t2 = false)
    (hdir : fs.isDir (dirname fp) = true)
    (htmp : fs.isDir st.tmproot = true) :
    (∀ (gs : FS) (t p : String) (gs' : FS) (d : Bool),
      st.mvtemp gs t p = .ok (gs', d) → (d = true ↔ gs.isFile p = true)) ∧
    (∀ (gs : FS) (t p : String), gs.isDir (dirname p) = true →
      gs.isFile p = true → st.mvtemp gs t p = .ok (gs.unlink t, true)) ∧
    (∃ (fs1 fs2 : FS) (a1 a2 : HashAddress),
      st.putstr fs b t1 = .ok (fs1, a1) ∧
      st.putstr fs1 b t2 = .ok (fs2, a2) ∧
      a1.is_duplicate = false ∧ a2.is_duplicate = true ∧
      a1.digest = a2.digest ∧ fs2 = fs1 ∧
      countFile fs2.files fp = 1 ∧ fs2.getFile fp = some b) := by
  refine ⟨?_, ?_, ?_⟩
  · intro gs t p gs' d h
    rw [uHashFS.mvtemp] at h
    cases hl : gs.link t p with
    | ok g1 =>
      rw [hl] at h
      injection h with h2
      injection h2 with h3 h4
      rw [← h4, link_ok_isFile_false gs t p g1 hl]
    | error e =>
      cases e with
      | eexist =>
        rw [hl] at h
        injection h with h2
        injection h2 with h3 h4
        rw [← h4, link_eexist_isFile gs t p hl]
      | enoent =>
        rw [hl] at h
        dsimp only at h
        cases hl2 : (gs.makedirs (dirname p)).link t p with
        | ok g2 =>
          rw [hl2] at h
          injection h with h2
          injection h2 with h3 h4
          have hf := link_ok_isFile_false _ t p g2 hl2
          rw [makedirs_isFile] at hf
          rw [← h4, hf]
        | error e2 =>
          rw [hl2] at h
          cases h
  · intro gs t p hd hf
    exact mvtemp_dup st gs t p hd hf
  · have h1 := putstr_fresh st fs b t1 fp hfp h0 hne1 hdir htmp
    have hfs1fp : (FS.mk ((fp, b) :: removeFile fs.files t1) fs.dirs).isFile fp
        = true := by
      simp [FS.isFile, FS.getFile, lookupFile]
    have hfs1t2 : (FS.mk ((fp, b) :: removeFile fs.files t1) fs.dirs).isFile t2
        = false := by
      have hfpt2 : ¬ (fp = t2) := fun he => hne2 he.symm
      simp only [FS.isFile, FS.getFile, lookupFile, if_neg hfpt2]
      by_cases ht12 : t2 = t1
      · rw [ht12, lookupFile_removeFile_self]
        rfl
      · rw [lookupFile_removeFile_ne fs.files t1 t2 ht12]
        have hn := getFile_none_of_isFile_false fs t2 ht2
        rw [FS.getFile] at hn
        rw [hn]
        rfl
    have h2 := putstr_dup st _ b t2 fp hfp hfs1fp hne2 hfs1t2 hdir htmp
    refine ⟨_, _, _, _, h1, h2, rfl, rfl, rfl, rfl, ?_, ?_⟩
    · have hnone : lookupFile (removeFile fs.files t1) fp = none := by
        rw [lookupFile_removeFile_ne fs.files t1 fp (fun he => hne1 he.symm)]
        exact getFile_none_of_isFile_false fs fp h0
      simp [countFile, lookupFile_none_countFile _ fp hnone]
    · simp [FS.getFile, lookupFile]

theorem c1_commit_dedup_witness :
    demoStore.digestpath (demoStore.hashfn [7]) = .ok "/store/a/ab" ∧
    demoFS.isFile "/store/a/ab" = false ∧
    (∃ (fs1 fs2 : FS) (a1 a2 : HashAddress),
      demoStore.putstr demoFS [7] "/tmpd/_t1a" = .ok (fs1, a1) ∧
      demoStore.putstr fs1 [7] "/tmpd/_t1b" = .ok (fs2, a2) ∧
      a1.is_duplicate = false ∧ a2.is_duplicate = true ∧
      a1.digest = a2.digest ∧ fs2 = fs1 ∧
      countFile fs2.files "/store/a/ab" = 1 ∧
      fs2.getFile "/store/a/ab" = some [7]) :=
  ⟨rfl, rfl,
    (c1_commit_dedup demoStore demoFS [7] "/store/a/ab" "/tmpd/_t1a" "/tmpd/_t1b"
      rfl rfl (by decide) (by decide) rfl rfl rfl).2.2⟩
